import Mathlib

/-!
Verification of the CullSpeed folder-scan / mark-reconciliation /
file-relocation core (src/cullspeed/app.py, with the extension and
file-name constants from src/CullSpeed.py).

Modelling conventions of the shallow embedding:

* A filesystem path is its list of components.  All paths handled by the
  program are produced by os.path.join from an absolute, normalized folder
  path, so os.path.abspath is the identity on them and path equality is
  component-list equality.
* A Python dict is an ordered association list: assignment replaces the
  value in place when the key is present and appends otherwise; deletion
  filters the key out; lookup returns the first (unique) matching entry.
* list.sort(key=os.path.basename) is a stable sort by code-point
  comparison of basenames.  Any two stable sorts under the same total
  preorder agree, so it is modelled by insertion sort, which is stable.
* String comparison and lowercasing are done on the character lists so
  that everything evaluates by kernel reduction.
-/

namespace CullSpeed

/-- A filesystem path, as its list of components (absolute and normalized,
so os.path.abspath is the identity on it). -/
abbrev Path := List String

/-- os.path.basename: the last path component (the empty string for the
empty path, which never denotes a real file). -/
def basename (p : Path) : String := p.getLast?.getD ""

/-- os.path.dirname: every component but the last. -/
def dirname (p : Path) : Path := p.dropLast

/-- os.path.join of a directory and one file name. -/
def joinPath (dir : Path) (name : String) : Path := dir ++ [name]

/-- Python dict lookup (d.get(k)): the value of the first entry whose key
is k, if any. -/
def dictGet {κ ν : Type} [DecidableEq κ] (k : κ) : List (κ × ν) → Option ν
  | [] => none
  | e :: es => if e.1 = k then some e.2 else dictGet k es

/-- Python dict assignment d[k] = v: replace the value in place when the
key is present (keys of a dict are unique, so replacing the first
occurrence is replacing the occurrence), append the new entry otherwise. -/
def dinsert {κ ν : Type} [DecidableEq κ] : List (κ × ν) → κ → ν → List (κ × ν)
  | [], k, v => [(k, v)]
  | e :: es, k, v => if e.1 = k then (k, v) :: es else e :: dinsert es k v

/-- Python `if k in d: del d[k]`: drop the entry with key k, keeping the
rest in order (a no-op when the key is absent). -/
def eraseKey {κ ν : Type} [DecidableEq κ] (m : List (κ × ν)) (k : κ) :
    List (κ × ν) :=
  m.filter (fun e => decide (e.1 ≠ k))

theorem dictGet_eq_none_iff {κ ν : Type} [DecidableEq κ] (k : κ)
    (m : List (κ × ν)) : dictGet k m = none ↔ ∀ e ∈ m, e.1 ≠ k := by
  induction m with
  | nil => simp [dictGet]
  | cons e es ih =>
    by_cases he : e.1 = k
    · simp [dictGet, he]
    · simp [dictGet, he, ih]

theorem dictGet_mem {κ ν : Type} [DecidableEq κ] {k : κ} {v : ν}
    {m : List (κ × ν)} (h : dictGet k m = some v) : (k, v) ∈ m := by
  induction m with
  | nil => simp [dictGet] at h
  | cons e es ih =>
    by_cases he : e.1 = k
    · simp only [dictGet, if_pos he, Option.some.injEq] at h
      have : e = (k, v) := by
        cases e
        simp only [Prod.mk.injEq]
        exact ⟨he, h⟩
      rw [← this]
      exact List.mem_cons_self _ _
    · simp only [dictGet, if_neg he] at h
      exact List.mem_cons_of_mem _ (ih h)

theorem dictGet_dinsert_self {κ ν : Type} [DecidableEq κ]
    (m : List (κ × ν)) (k : κ) (v : ν) :
    dictGet k (dinsert m k v) = some v := by
  induction m with
  | nil => simp [dictGet, dinsert]
  | cons e es ih =>
    by_cases he : e.1 = k
    · simp [dinsert, dictGet, he]
    · simp [dinsert, dictGet, he, ih]

theorem dictGet_dinsert_ne {κ ν : Type} [DecidableEq κ]
    (m : List (κ × ν)) (k k' : κ) (v : ν) (h : k' ≠ k) :
    dictGet k' (dinsert m k v) = dictGet k' m := by
  induction m with
  | nil =>
    show dictGet k' [(k, v)] = none
    rw [dictGet, if_neg (fun hh : (k, v).1 = k' => h hh.symm), dictGet]
  | cons e es ih =>
    by_cases he : e.1 = k
    · have h2 : ¬ (e.1 = k') := by rw [he]; exact fun hh => h hh.symm
      rw [dinsert, if_pos he, dictGet,
        if_neg (fun hh : (k, v).1 = k' => h hh.symm), dictGet, if_neg h2]
    · rw [dinsert, if_neg he, dictGet, dictGet]
      by_cases he' : e.1 = k'
      · rw [if_pos he', if_pos he']
      · rw [if_neg he', if_neg he', ih]

theorem dictGet_dinsert_isSome {κ ν : Type} [DecidableEq κ]
    {m : List (κ × ν)} {k k' : κ} {v : ν}
    (h : (dictGet k' (dinsert m k v)).isSome) :
    k' = k ∨ (dictGet k' m).isSome := by
  by_cases hk : k' = k
  · exact Or.inl hk
  · right
    rwa [dictGet_dinsert_ne m k k' v hk] at h

theorem dictGet_eraseKey {κ ν : Type} [DecidableEq κ]
    (m : List (κ × ν)) (k k' : κ) :
    dictGet k' (eraseKey m k) = if k' = k then none else dictGet k' m := by
  induction m with
  | nil => by_cases hk : k' = k <;> simp [dictGet, eraseKey, hk]
  | cons e es ih =>
    rw [eraseKey, List.filter_cons]
    by_cases hek : e.1 = k
    · rw [if_neg (by simp [hek])]
      rw [show List.filter (fun e => decide (e.1 ≠ k)) es = eraseKey es k from rfl,
        ih]
      by_cases hk : k' = k
      · rw [if_pos hk, if_pos hk]
      · rw [if_neg hk, if_neg hk, dictGet,
          if_neg (by rw [hek]; exact fun hh => hk hh.symm)]
    · rw [if_pos (by simp [hek])]
      by_cases he' : e.1 = k'
      · have hk : k' ≠ k := by rw [← he']; exact hek
        rw [dictGet, if_pos he', if_neg hk, dictGet, if_pos he']
      · rw [dictGet, if_neg he',
          show List.filter (fun e => decide (e.1 ≠ k)) es = eraseKey es k from rfl,
          ih]
        by_cases hk : k' = k
        · rw [if_pos hk, if_pos hk]
        · rw [if_neg hk, if_neg hk, dictGet, if_neg he']

/-- Lexicographic code-point comparison of character lists: the order
Python uses to compare the basename strings when sorting. -/
def lexLe : List Char → List Char → Bool
  | [], _ => true
  | _ :: _, [] => false
  | a :: as, b :: bs => if a < b then true else if b < a then false else lexLe as bs

/-- Python string comparison s ≤ t (code-point lexicographic). -/
def strLe (a b : String) : Bool := lexLe a.data b.data

theorem lexLe_total (as : List Char) :
    ∀ bs, lexLe as bs = true ∨ lexLe bs as = true := by
  induction as with
  | nil => intro bs; left; rfl
  | cons a as ih =>
    intro bs
    cases bs with
    | nil => right; rfl
    | cons b bs =>
      rcases lt_trichotomy a b with hab | hab | hab
      · left
        rw [lexLe, if_pos hab]
      · subst hab
        rcases ih bs with h | h
        · left
          rw [lexLe, if_neg (lt_irrefl a), if_neg (lt_irrefl a)]
          exact h
        · right
          rw [lexLe, if_neg (lt_irrefl a), if_neg (lt_irrefl a)]
          exact h
      · right
        rw [lexLe, if_pos hab]

theorem lexLe_trans :
    ∀ as bs cs : List Char,
      lexLe as bs = true → lexLe bs cs = true → lexLe as cs = true := by
  intro as
  induction as with
  | nil => intro bs cs _ _; rfl
  | cons a as ih =>
    intro bs cs h1 h2
    cases bs with
    | nil => exact absurd h1 (by rw [lexLe]; exact Bool.false_ne_true)
    | cons b bs =>
      cases cs with
      | nil => exact absurd h2 (by rw [lexLe]; exact Bool.false_ne_true)
      | cons c cs =>
        rcases lt_trichotomy a b with hab | hab | hab
        · rcases lt_trichotomy b c with hbc | hbc | hbc
          · rw [lexLe, if_pos (lt_trans hab hbc)]
          · subst hbc
            rw [lexLe, if_pos hab]
          · rw [lexLe, if_neg (asymm hbc), if_pos hbc] at h2
            exact absurd h2 Bool.false_ne_true
        · subst hab
          rw [lexLe, if_neg (lt_irrefl a), if_neg (lt_irrefl a)] at h1
          rcases lt_trichotomy a c with hac | hac | hac
          · rw [lexLe, if_pos hac]
          · subst hac
            rw [lexLe, if_neg (lt_irrefl a), if_neg (lt_irrefl a)] at h2 ⊢
            exact ih bs cs h1 h2
          · rw [lexLe, if_neg (asymm hac), if_pos hac] at h2
            exact absurd h2 Bool.false_ne_true
        · rw [lexLe, if_neg (asymm hab), if_pos hab] at h1
          exact absurd h1 Bool.false_ne_true

/-- The relation files are sorted by: basename comparison only
(list.sort(key=os.path.basename)). -/
def baseLe (a b : Path) : Prop := strLe (basename a) (basename b) = true

instance : DecidableRel baseLe := fun a b =>
  inferInstanceAs (Decidable (strLe (basename a) (basename b) = true))

instance : IsTotal Path baseLe :=
  ⟨fun a b => lexLe_total (basename a).data (basename b).data⟩

instance : IsTrans Path baseLe :=
  ⟨fun a b c h1 h2 =>
    lexLe_trans (basename a).data (basename b).data (basename c).data h1 h2⟩

/-- The supported image extensions of CullSpeed.py (SUPPORTED_EXTENSIONS). -/
def SUPPORTED_EXTENSIONS : List String :=
  [".jpg", ".jpeg", ".png", ".webp", ".arw", ".cr2", ".nef", ".dng", ".orf",
   ".raf", ".rw2"]

/-- str.lower, character by character. -/
def lowerStr (s : String) : String := String.mk (s.data.map Char.toLower)

/-- entry.name.lower().endswith(SUPPORTED_EXTENSIONS): a tuple argument to
endswith means any of its members is a suffix. -/
def isSupported (name : String) : Bool :=
  SUPPORTED_EXTENSIONS.any (fun e => List.isSuffixOf e.data (lowerStr name).data)

/-- The part of the filesystem a scan looks at: the folder path plus the
file names os.scandir enumerates (in enumeration order) directly in the
root and in the two status subfolders.  A missing subfolder enumerates no
names, exactly like an existing empty one, so it needs no separate case. -/
structure Folder where
  root : Path
  rootNames : List String
  keepNames : List String
  rejectNames : List String

/-- scan_dir of scan_folder: the eligible entry paths of one directory. -/
def scanDir (dir : Path) (names : List String) : List Path :=
  (names.filter isSupported).map (joinPath dir)

def keepDirOf (root : Path) : Path := joinPath root "_KEEPS"

def rejectDirOf (root : Path) : Path := joinPath root "_REJECTS"

def rootFiles (fs : Folder) : List Path := scanDir fs.root fs.rootNames

def keepFiles (fs : Folder) : List Path :=
  scanDir (keepDirOf fs.root) fs.keepNames

def rejectFiles (fs : Folder) : List Path :=
  scanDir (rejectDirOf fs.root) fs.rejectNames

/-- root_files + keep_files + reject_files, sorted stably by basename.
Python list.sort is a stable sort; stable sorts under a total preorder are
unique, so insertion sort computes the same list. -/
def scanFiles (fs : Folder) : List Path :=
  List.insertionSort baseLe (rootFiles fs ++ keepFiles fs ++ rejectFiles fs)

/-- The in-memory mark set self.marks: a dict from file path to the status
string stored for it. -/
abbrev Marks := List (Path × String)

/-- A parsed session file: the JSON object as a dict from basename to
status string (JSON object keys are unique). -/
abbrev Session := List (String × String)

/-- The location-seeded marks: status keep for every file found under
_KEEPS, then status reject for every file found under _REJECTS. -/
def seedMarks (fs : Folder) : Marks :=
  (rejectFiles fs).foldl (fun m f => dinsert m f "reject")
    ((keepFiles fs).foldl (fun m f => dinsert m f "keep") [])

/-- name_to_path = \x7bos.path.basename(p): p for p in self.files\x7d. -/
def nameToPath (files : List Path) : List (String × Path) :=
  files.foldl (fun d p => dinsert d (basename p) p) []

/-- The session overlay loop: for each session entry whose basename is a
key of name_to_path, assign its status to that path. -/
def applySession (files : List Path) : Marks → Session → Marks
  | m, [] => m
  | m, e :: rest =>
    applySession files
      (match dictGet e.1 (nameToPath files) with
       | some p => dinsert m p e.2
       | none => m)
      rest

/-- What scan_folder leaves in self.files and self.marks. -/
structure ScanResult where
  files : List Path
  marks : Marks
deriving DecidableEq

/-- scan_folder: enumerate and sort the eligible files; on an empty result
return early with everything cleared; otherwise seed marks from location
and overlay the session data.  The session argument: none models a missing
session file, some none a session file whose read or JSON parse raises
(the inner try swallows the error, keeping the seeded marks), and
some (some sd) a parsed session object. -/
def scan_folder (fs : Folder) (session : Option (Option Session)) : ScanResult :=
  if (scanFiles fs).isEmpty then ⟨[], []⟩
  else
    ⟨scanFiles fs,
      match session with
      | some (some sd) => applySession (scanFiles fs) (seedMarks fs) sd
      | _ => seedMarks fs⟩

/-- save_session: serialize the mark set as a basename-keyed dict,
iterating the marks in order. -/
def save_session (m : Marks) : Session :=
  m.foldl (fun d e => dinsert d (basename e.1) e.2) []

/-- The mark mutation of mark_current on one path: status None deletes the
key when present, any other status is assigned verbatim. -/
def setMark (m : Marks) (p : Path) (status : Option String) : Marks :=
  match status with
  | none => eraseKey m p
  | some s => dinsert m p s

/-- The target directory a file should live in according to its mark
(process_files): _KEEPS for 'keep', _REJECTS for 'reject', the folder root
for anything else including no mark at all. -/
def targetDir (marks : Marks) (folderRoot : Path) (f : Path) : Path :=
  match dictGet f marks with
  | some s =>
    if s = "keep" then keepDirOf folderRoot
    else if s = "reject" then rejectDirOf folderRoot
    else folderRoot
  | none => folderRoot

/-- The relocation plan: the three pending lists of process_files. -/
structure MovePlan where
  keeps : List Path
  rejects : List Path
  unmarked : List Path
deriving DecidableEq

/-- The loop body of the planning phase of process_files: skip a file
whose containing directory already equals its target directory, otherwise
append it to the pending list of its status. -/
def planStep (marks : Marks) (folderRoot : Path) (plan : MovePlan) (f : Path) :
    MovePlan :=
  if dirname f = targetDir marks folderRoot f then plan
  else if dictGet f marks = some "keep" then
    { plan with keeps := plan.keeps ++ [f] }
  else if dictGet f marks = some "reject" then
    { plan with rejects := plan.rejects ++ [f] }
  else { plan with unmarked := plan.unmarked ++ [f] }

/-- The planning phase of process_files over the whole file list. -/
def planMoves (files : List Path) (marks : Marks) (folderRoot : Path) :
    MovePlan :=
  files.foldl (planStep marks folderRoot) ⟨[], [], []⟩

/-- Where a file sits after a successful execution: in its target
directory, under its unchanged basename. -/
def relocate (marks : Marks) (folderRoot : Path) (f : Path) : Path :=
  joinPath (targetDir marks folderRoot f) (basename f)

/-- safe_move of process_files: the destination is the target folder plus
the existing basename; the move is skipped when source equals destination,
and otherwise performed by shutil.move, an external primitive that either
produces the new filesystem state or fails. -/
def safeMove {σ ε : Type} (mv : Path → Path → σ → Except ε σ) (st : σ)
    (src destFolder : Path) : Except ε σ :=
  let dest := joinPath destFolder (basename src)
  if src = dest then Except.ok st else mv src dest st

/-- The move loop of process_files: moves run in order inside one
try-block, so the first failure stops the loop, keeps the state the
completed moves produced, and surfaces the error. -/
def runMoves {σ ε : Type} (mv : Path → Path → σ → Except ε σ) (st : σ) :
    List (Path × Path) → σ × Option ε
  | [] => (st, none)
  | e :: rest =>
    match safeMove mv st e.1 e.2 with
    | Except.ok st2 => runMoves mv st2 rest
    | Except.error err => (st, some err)

/-- The move order of process_files: all keeps, then all rejects, then all
unmarked files, each paired with its destination folder. -/
def planQueue (plan : MovePlan) (folderRoot : Path) : List (Path × Path) :=
  plan.keeps.map (fun f => (f, keepDirOf folderRoot))
    ++ plan.rejects.map (fun f => (f, rejectDirOf folderRoot))
    ++ plan.unmarked.map (fun f => (f, folderRoot))

/-- The execution phase of process_files on a relocation plan. -/
def executePlan {σ ε : Type} (mv : Path → Path → σ → Except ε σ)
    (plan : MovePlan) (folderRoot : Path) (st : σ) : σ × Option ε :=
  runMoves mv st (planQueue plan folderRoot)

theorem basename_joinPath (dir : Path) (name : String) :
    basename (joinPath dir name) = name := by
  simp [basename, joinPath, List.getLast?_concat]

theorem dirname_joinPath (dir : Path) (name : String) :
    dirname (joinPath dir name) = dir := by
  simp [dirname, joinPath, List.dropLast_concat]

theorem joinPath_injective (dir : Path) : Function.Injective (joinPath dir) := by
  intro a b h
  have := List.append_cancel_left h
  simpa using this

/-- The value a chain of dict assignments (with keys and values computed
from the assigned items) leaves under a key: the value of the last item
assigned to that key, or what the initial dict held there. -/
theorem dictGet_foldl_dinsert {α κ ν : Type} [DecidableEq κ]
    (key : α → κ) (val : α → ν) (l : List α) (d0 : List (κ × ν)) (n : κ) :
    dictGet n (l.foldl (fun d a => dinsert d (key a) (val a)) d0)
      = Option.elim (l.reverse.find? (fun a => decide (key a = n)))
          (dictGet n d0) (fun a => some (val a)) := by
  induction l generalizing d0 with
  | nil => rfl
  | cons a l ih =>
    rw [List.foldl_cons, ih, List.reverse_cons, List.find?_append]
    cases hfind : l.reverse.find? (fun a => decide (key a = n)) with
    | some b => rfl
    | none =>
      show dictGet n (dinsert d0 (key a) (val a))
          = Option.elim ((none : Option α).or (List.find? (fun a => decide (key a = n)) [a]))
              (dictGet n d0) (fun a => some (val a))
      by_cases hk : key a = n
      · rw [List.find?_cons_of_pos _ (by simpa using hk)]
        rw [← hk, dictGet_dinsert_self]
        rfl
      · rw [List.find?_cons_of_neg _ (by simpa using hk)]
        rw [dictGet_dinsert_ne d0 (key a) n (val a) (fun hh => hk hh.symm)]
        rfl

theorem dictGet_foldl_constVal {κ ν : Type} [DecidableEq κ]
    (l : List κ) (v : ν) (d0 : List (κ × ν)) (k : κ) :
    dictGet k (l.foldl (fun d a => dinsert d a v) d0)
      = if k ∈ l then some v else dictGet k d0 := by
  induction l generalizing d0 with
  | nil => simp
  | cons a l ih =>
    rw [List.foldl_cons, ih]
    by_cases hl : k ∈ l
    · rw [if_pos hl, if_pos (List.mem_cons_of_mem _ hl)]
    · rw [if_neg hl]
      by_cases hk : k = a
      · rw [if_pos (by rw [hk]; exact List.mem_cons_self _ _)]
        show dictGet k (dinsert d0 a v) = some v
        rw [hk, dictGet_dinsert_self]
      · rw [if_neg (by simp [hk, hl])]
        show dictGet k (dinsert d0 a v) = dictGet k d0
        exact dictGet_dinsert_ne d0 a k v hk

theorem nameToPath_spec (files : List Path) (n : String) :
    dictGet n (nameToPath files)
      = files.reverse.find? (fun p => decide (basename p = n)) := by
  have h := dictGet_foldl_dinsert basename (fun p : Path => p) files [] n
  have h2 : Option.elim (files.reverse.find? (fun p => decide (basename p = n)))
      (dictGet n ([] : List (String × Path))) (fun a => some a)
      = files.reverse.find? (fun p => decide (basename p = n)) := by
    cases files.reverse.find? (fun p => decide (basename p = n)) <;> rfl
  exact h.trans h2

theorem nameToPath_mem {files : List Path} {n : String} {p : Path}
    (h : dictGet n (nameToPath files) = some p) :
    p ∈ files ∧ basename p = n := by
  rw [nameToPath_spec] at h
  refine ⟨List.mem_reverse.mp (List.mem_of_find?_eq_some h), ?_⟩
  have := List.find?_some h
  simpa using this

theorem nameToPath_isSome_iff (files : List Path) (n : String) :
    (dictGet n (nameToPath files)).isSome = true
      ↔ ∃ p ∈ files, basename p = n := by
  rw [nameToPath_spec, List.find?_isSome]
  constructor
  · rintro ⟨p, hp, hb⟩
    exact ⟨p, List.mem_reverse.mp hp, by simpa using hb⟩
  · rintro ⟨p, hp, hb⟩
    exact ⟨p, List.mem_reverse.mpr hp, by simpa using hb⟩

theorem save_session_spec (m : Marks) (n : String) :
    dictGet n (save_session m)
      = Option.map (fun e => e.2)
          (m.reverse.find? (fun e => decide (basename e.1 = n))) := by
  have h := dictGet_foldl_dinsert (fun e : Path × String => basename e.1)
    (fun e : Path × String => e.2) m [] n
  have h2 : Option.elim (m.reverse.find? (fun e => decide (basename e.1 = n)))
      (dictGet n ([] : Session)) (fun e => some e.2)
      = Option.map (fun e => e.2)
          (m.reverse.find? (fun e => decide (basename e.1 = n))) := by
    cases m.reverse.find? (fun e => decide (basename e.1 = n)) <;> rfl
  exact h.trans h2

theorem seedMarks_spec (fs : Folder) (f : Path) :
    dictGet f (seedMarks fs)
      = if f ∈ rejectFiles fs then some "reject"
        else if f ∈ keepFiles fs then some "keep" else none := by
  unfold seedMarks
  rw [dictGet_foldl_constVal, dictGet_foldl_constVal]
  by_cases h1 : f ∈ rejectFiles fs
  · rw [if_pos h1, if_pos h1]
  · rw [if_neg h1, if_neg h1]
    by_cases h2 : f ∈ keepFiles fs
    · rw [if_pos h2, if_pos h2]
    · rw [if_neg h2, if_neg h2]
      rfl

theorem scan_folder_files (fs : Folder) (sess : Option (Option Session)) :
    (scan_folder fs sess).files = scanFiles fs := by
  unfold scan_folder
  by_cases h : (scanFiles fs).isEmpty
  · rw [if_pos h]
    exact (List.isEmpty_iff.mp h).symm
  · rw [if_neg h]

theorem scan_folder_marks_parsed (fs : Folder) (sd : Session)
    (h : ¬ (scanFiles fs).isEmpty = true) :
    (scan_folder fs (some (some sd))).marks
      = applySession (scanFiles fs) (seedMarks fs) sd := by
  unfold scan_folder
  rw [if_neg h]

theorem scan_folder_marks_empty (fs : Folder) (sess : Option (Option Session))
    (h : (scanFiles fs).isEmpty = true) :
    (scan_folder fs sess).marks = [] := by
  unfold scan_folder
  rw [if_pos h]

/-- Session entries that never resolve to the given path leave its mark
untouched. -/
theorem applySession_untouched (files : List Path) (sd : Session) (f : Path)
    (h : ∀ e ∈ sd, ∀ p, dictGet e.1 (nameToPath files) = some p → p ≠ f) :
    ∀ m : Marks, dictGet f (applySession files m sd) = dictGet f m := by
  induction sd with
  | nil => intro m; rfl
  | cons e rest ih =>
    intro m
    rw [applySession]
    have hrest : ∀ e' ∈ rest, ∀ p, dictGet e'.1 (nameToPath files) = some p → p ≠ f :=
      fun e' he' => h e' (List.mem_cons_of_mem _ he')
    cases hp : dictGet e.1 (nameToPath files) with
    | none => exact ih hrest m
    | some p =>
      rw [ih hrest (dinsert m p e.2)]
      exact dictGet_dinsert_ne m p f e.2
        (fun hh => h e (List.mem_cons_self _ _) p hp hh.symm)

/-- A session entry that resolves (through name_to_path) to a path sets
that path to its status, and no other entry of a well-formed session (its
keys are unique) can overwrite it. -/
theorem applySession_resolved (files : List Path) (sd : Session)
    (n : String) (s : String) (f : Path)
    (hk : (sd.map Prod.fst).Nodup)
    (hmem : (n, s) ∈ sd)
    (hf : dictGet n (nameToPath files) = some f) :
    ∀ m : Marks, dictGet f (applySession files m sd) = some s := by
  induction sd with
  | nil => exact absurd hmem (List.not_mem_nil _)
  | cons e rest ih =>
    intro m
    rw [applySession]
    rcases List.mem_cons.mp hmem with heq | hmem'
    · have he1 : e.1 = n := by rw [← heq]
      have he2 : e.2 = s := by rw [← heq]
      rw [he1, hf]
      have hnot : ∀ e' ∈ rest, ∀ p, dictGet e'.1 (nameToPath files) = some p → p ≠ f := by
        intro e' he' p hp hpf
        have hb1 : basename f = n := (nameToPath_mem hf).2
        have hb2 : basename p = e'.1 := (nameToPath_mem hp).2
        have hne : e'.1 ≠ n := by
          intro hcontra
          rw [List.map_cons, he1] at hk
          exact (List.nodup_cons.mp hk).1
            (hcontra ▸ List.mem_map_of_mem Prod.fst he')
        apply hne
        rw [← hb2, hpf, hb1]
      rw [applySession_untouched files rest f hnot]
      show dictGet f (dinsert m f e.2) = some s
      rw [he2]
      exact dictGet_dinsert_self m f s
    · have hk' : (rest.map Prod.fst).Nodup := by
        rw [List.map_cons] at hk
        exact (List.nodup_cons.mp hk).2
      cases hp : dictGet e.1 (nameToPath files) with
      | none => exact ih hk' hmem' _
      | some p => exact ih hk' hmem' _

/-- The keys the session overlay can add all come from name_to_path, whose
values are files of the current listing. -/
theorem applySession_isSome (files : List Path) (sd : Session) (q : Path) :
    ∀ m : Marks, (dictGet q (applySession files m sd)).isSome = true →
      (dictGet q m).isSome = true ∨ q ∈ files := by
  induction sd with
  | nil => intro m h; exact Or.inl h
  | cons e rest ih =>
    intro m h
    rw [applySession] at h
    cases hp : dictGet e.1 (nameToPath files) with
    | none =>
      rw [hp] at h
      exact ih m h
    | some p =>
      rw [hp] at h
      rcases ih _ h with h2 | h2
      · rcases dictGet_dinsert_isSome h2 with rfl | h3
        · exact Or.inr (nameToPath_mem hp).1
        · exact Or.inl h3
      · exact Or.inr h2

theorem targetDir_congr (m m2 : Marks) (folderRoot f g : Path)
    (h : dictGet g m2 = dictGet f m) :
    targetDir m2 folderRoot g = targetDir m folderRoot f := by
  unfold targetDir
  rw [h]

/-- A file is pending for _KEEPS. -/
def pendKeep (marks : Marks) (folderRoot : Path) (f : Path) : Bool :=
  !decide (dirname f = targetDir marks folderRoot f)
    && decide (dictGet f marks = some "keep")

/-- A file is pending for _REJECTS. -/
def pendReject (marks : Marks) (folderRoot : Path) (f : Path) : Bool :=
  !decide (dirname f = targetDir marks folderRoot f)
    && !decide (dictGet f marks = some "keep")
    && decide (dictGet f marks = some "reject")

/-- A file is pending for the folder root. -/
def pendUnmarked (marks : Marks) (folderRoot : Path) (f : Path) : Bool :=
  !decide (dirname f = targetDir marks folderRoot f)
    && !decide (dictGet f marks = some "keep")
    && !decide (dictGet f marks = some "reject")

theorem foldl_planStep (marks : Marks) (folderRoot : Path) :
    ∀ (files : List Path) (acc : MovePlan),
      files.foldl (planStep marks folderRoot) acc
        = ⟨acc.keeps ++ files.filter (pendKeep marks folderRoot),
           acc.rejects ++ files.filter (pendReject marks folderRoot),
           acc.unmarked ++ files.filter (pendUnmarked marks folderRoot)⟩ := by
  intro files
  induction files with
  | nil => intro acc; simp
  | cons f fs ih =>
    intro acc
    rw [List.foldl_cons, ih, List.filter_cons, List.filter_cons, List.filter_cons]
    unfold planStep pendKeep pendReject pendUnmarked
    by_cases h1 : dirname f = targetDir marks folderRoot f
    · simp [h1]
    · by_cases h2 : dictGet f marks = some "keep"
      · simp [h1, h2]
      · by_cases h3 : dictGet f marks = some "reject"
        · simp [h1, h2, h3]
        · simp [h1, h2, h3]

theorem planMoves_eq (files : List Path) (marks : Marks) (folderRoot : Path) :
    planMoves files marks folderRoot
      = ⟨files.filter (pendKeep marks folderRoot),
         files.filter (pendReject marks folderRoot),
         files.filter (pendUnmarked marks folderRoot)⟩ := by
  unfold planMoves
  rw [foldl_planStep]
  simp

theorem runMoves_append {σ ε : Type} (mv : Path → Path → σ → Except ε σ)
    (l1 l2 : List (Path × Path)) :
    ∀ st : σ, runMoves mv st (l1 ++ l2)
      = match runMoves mv st l1 with
        | (st1, none) => runMoves mv st1 l2
        | (st1, some e) => (st1, some e) := by
  induction l1 with
  | nil => intro st; rfl
  | cons e l1 ih =>
    intro st
    show (match safeMove mv st e.1 e.2 with
          | Except.ok st2 => runMoves mv st2 (l1 ++ l2)
          | Except.error err => (st, some err))
        = match (match safeMove mv st e.1 e.2 with
                 | Except.ok st2 => runMoves mv st2 l1
                 | Except.error err => (st, some err)) with
          | (st1, none) => runMoves mv st1 l2
          | (st1, some er) => (st1, some er)
    cases h : safeMove mv st e.1 e.2 with
    | ok st2 => exact ih st2
    | error err => rfl

theorem scanDir_nodup (dir : Path) (names : List String) (h : names.Nodup) :
    (scanDir dir names).Nodup :=
  List.Nodup.map (joinPath_injective dir) (List.Nodup.filter _ h)

theorem mem_scanDir {dir : Path} {names : List String} {x : Path}
    (h : x ∈ scanDir dir names) : ∃ name, x = joinPath dir name := by
  rcases List.mem_map.mp h with ⟨n, _, rfl⟩
  exact ⟨n, rfl⟩

theorem length_mem_rootFiles {fs : Folder} {x : Path} (h : x ∈ rootFiles fs) :
    x.length = fs.root.length + 1 := by
  rcases mem_scanDir h with ⟨n, rfl⟩
  simp [joinPath]

theorem length_mem_keepFiles {fs : Folder} {x : Path} (h : x ∈ keepFiles fs) :
    x.length = fs.root.length + 2 := by
  rcases mem_scanDir h with ⟨n, rfl⟩
  simp [joinPath, keepDirOf]

theorem length_mem_rejectFiles {fs : Folder} {x : Path} (h : x ∈ rejectFiles fs) :
    x.length = fs.root.length + 2 := by
  rcases mem_scanDir h with ⟨n, rfl⟩
  simp [joinPath, rejectDirOf]

theorem keepFiles_disjoint_rejectFiles (fs : Folder) :
    (keepFiles fs).Disjoint (rejectFiles fs) := by
  intro x hk hr
  rcases mem_scanDir hk with ⟨n, rfl⟩
  rcases mem_scanDir hr with ⟨n', heq⟩
  have : fs.root ++ (["_KEEPS"] ++ [n]) = fs.root ++ (["_REJECTS"] ++ [n']) := by
    have h2 := heq
    simp only [joinPath, keepDirOf, rejectDirOf, List.append_assoc] at h2 ⊢
    exact h2
  have h3 := List.append_cancel_left this
  simp at h3

theorem scan_concat_nodup (fs : Folder)
    (h1 : fs.rootNames.Nodup) (h2 : fs.keepNames.Nodup)
    (h3 : fs.rejectNames.Nodup) :
    (rootFiles fs ++ keepFiles fs ++ rejectFiles fs).Nodup := by
  rw [List.nodup_append, List.nodup_append, List.disjoint_append_left]
  refine ⟨⟨scanDir_nodup _ _ h1, scanDir_nodup _ _ h2, ?_⟩,
    scanDir_nodup _ _ h3, ?_, ?_⟩
  · intro x hx hk
    have := length_mem_rootFiles hx
    have := length_mem_keepFiles hk
    omega
  · intro x hx hr
    have := length_mem_rootFiles hx
    have := length_mem_rejectFiles hr
    omega
  · exact keepFiles_disjoint_rejectFiles fs

/-- C1: for every folder whose eligible files (the extension check of
scan_dir, case-insensitive) are split arbitrarily across the root, the
_KEEPS subfolder and the _REJECTS subfolder, scan returns exactly those
files: a permutation of the three eligible listings, sorted by basename
alone, with no duplicates, of length equal to the total count of eligible
names. -/
theorem c1_scan_exact_sorted_nodup (fs : Folder) (sess : Option (Option Session))
    (h1 : fs.rootNames.Nodup) (h2 : fs.keepNames.Nodup)
    (h3 : fs.rejectNames.Nodup) :
    (scan_folder fs sess).files.Perm
        (rootFiles fs ++ keepFiles fs ++ rejectFiles fs)
    ∧ List.Sorted baseLe (scan_folder fs sess).files
    ∧ (scan_folder fs sess).files.Nodup
    ∧ (scan_folder fs sess).files.length
        = (fs.rootNames.filter isSupported).length
          + (fs.keepNames.filter isSupported).length
          + (fs.rejectNames.filter isSupported).length := by
  rw [scan_folder_files]
  refine ⟨List.perm_insertionSort baseLe _, List.sorted_insertionSort baseLe _,
    ?_, ?_⟩
  · exact (List.perm_insertionSort baseLe _).nodup_iff.mpr
      (scan_concat_nodup fs h1 h2 h3)
  · have hp := (List.perm_insertionSort baseLe
      (rootFiles fs ++ keepFiles fs ++ rejectFiles fs)).length_eq
    unfold scanFiles
    rw [hp]
    simp only [List.length_append, rootFiles, keepFiles, rejectFiles, scanDir,
      List.length_map]

def w1fs : Folder := ⟨["r"], ["b.jpg", "note.txt"], ["a.jpg"], ["c.png"]⟩

theorem c1_witness :
    (scan_folder w1fs none).files.Perm
        (rootFiles w1fs ++ keepFiles w1fs ++ rejectFiles w1fs)
    ∧ List.Sorted baseLe (scan_folder w1fs none).files
    ∧ (scan_folder w1fs none).files.Nodup
    ∧ (scan_folder w1fs none).files.length
        = (w1fs.rootNames.filter isSupported).length
          + (w1fs.keepNames.filter isSupported).length
          + (w1fs.rejectNames.filter isSupported).length :=
  c1_scan_exact_sorted_nodup w1fs none (by decide) (by decide) (by decide)

/-- C3: the relocation plan contains a file exactly when its containing
directory differs from its target directory, where the target is
folderRoot/_KEEPS for mark 'keep', folderRoot/_REJECTS for mark 'reject',
and the folder root otherwise; files already in place are never planned. -/
theorem c3_plan_membership (files : List Path) (marks : Marks)
    (folderRoot : Path) (f : Path) :
    ((f ∈ (planMoves files marks folderRoot).keeps
        ∨ f ∈ (planMoves files marks folderRoot).rejects
        ∨ f ∈ (planMoves files marks folderRoot).unmarked)
      ↔ f ∈ files ∧ dirname f ≠ targetDir marks folderRoot f)
    ∧ (dictGet f marks = some "keep"
        → targetDir marks folderRoot f = keepDirOf folderRoot)
    ∧ (dictGet f marks = some "reject"
        → targetDir marks folderRoot f = rejectDirOf folderRoot)
    ∧ (dictGet f marks ≠ some "keep" → dictGet f marks ≠ some "reject"
        → targetDir marks folderRoot f = folderRoot) := by
  refine ⟨?_, ?_, ?_, ?_⟩
  · rw [planMoves_eq]
    simp only [List.mem_filter, pendKeep, pendReject, pendUnmarked,
      Bool.and_eq_true, Bool.not_eq_true', decide_eq_true_eq,
      decide_eq_false_iff_not]
    tauto
  · intro h
    unfold targetDir
    rw [h]
    rfl
  · intro h
    unfold targetDir
    rw [h]
    rfl
  · intro hk hr
    unfold targetDir
    cases h : dictGet f marks with
    | none => rfl
    | some s =>
      rw [h] at hk hr
      have hsk : ¬ s = "keep" := fun hh => hk (by rw [hh])
      have hsr : ¬ s = "reject" := fun hh => hr (by rw [hh])
      simp [hsk, hsr]

theorem c3_witness :
    ((["r", "a.jpg"] ∈ (planMoves [["r", "a.jpg"]] [(["r", "a.jpg"], "keep")] ["r"]).keeps
        ∨ ["r", "a.jpg"] ∈ (planMoves [["r", "a.jpg"]] [(["r", "a.jpg"], "keep")] ["r"]).rejects
        ∨ ["r", "a.jpg"] ∈ (planMoves [["r", "a.jpg"]] [(["r", "a.jpg"], "keep")] ["r"]).unmarked)
      ↔ ["r", "a.jpg"] ∈ [["r", "a.jpg"]]
          ∧ dirname ["r", "a.jpg"] ≠ targetDir [(["r", "a.jpg"], "keep")] ["r"] ["r", "a.jpg"])
    ∧ targetDir [(["r", "a.jpg"], "keep")] ["r"] ["r", "a.jpg"] = keepDirOf ["r"] :=
  ⟨(c3_plan_membership [["r", "a.jpg"]] [(["r", "a.jpg"], "keep")] ["r"] ["r", "a.jpg"]).1,
   (c3_plan_membership [["r", "a.jpg"]] [(["r", "a.jpg"], "keep")] ["r"] ["r", "a.jpg"]).2.1
     (by decide)⟩

/-- C4: after a successful execution every pending file sits in its target
directory under its basename; replanning with a mark set that gives each
relocated file the status its original path had yields the empty plan. -/
theorem c4_plan_idempotent (files : List Path) (marks marks2 : Marks)
    (folderRoot : Path)
    (h : ∀ f ∈ files,
      dictGet (relocate marks folderRoot f) marks2 = dictGet f marks) :
    planMoves (files.map (relocate marks folderRoot)) marks2 folderRoot
      = ⟨[], [], []⟩ := by
  rw [planMoves_eq]
  have key : ∀ g ∈ files.map (relocate marks folderRoot),
      dirname g = targetDir marks2 folderRoot g := by
    intro g hg
    rcases List.mem_map.mp hg with ⟨f, hf, rfl⟩
    rw [targetDir_congr marks marks2 folderRoot f
      (relocate marks folderRoot f) (h f hf)]
    exact dirname_joinPath _ _
  have hk : List.filter (pendKeep marks2 folderRoot)
      (files.map (relocate marks folderRoot)) = [] := by
    rw [List.filter_eq_nil_iff]
    intro g hg
    simp [pendKeep, key g hg]
  have hr : List.filter (pendReject marks2 folderRoot)
      (files.map (relocate marks folderRoot)) = [] := by
    rw [List.filter_eq_nil_iff]
    intro g hg
    simp [pendReject, key g hg]
  have hu : List.filter (pendUnmarked marks2 folderRoot)
      (files.map (relocate marks folderRoot)) = [] := by
    rw [List.filter_eq_nil_iff]
    intro g hg
    simp [pendUnmarked, key g hg]
  rw [hk, hr, hu]

theorem c4_witness :
    planMoves
        ([["r", "a.jpg"], ["r", "_KEEPS", "b.jpg"]].map
          (relocate [(["r", "a.jpg"], "keep")] ["r"]))
        [(["r", "_KEEPS", "a.jpg"], "keep")] ["r"]
      = ⟨[], [], []⟩ :=
  c4_plan_idempotent [["r", "a.jpg"], ["r", "_KEEPS", "b.jpg"]]
    [(["r", "a.jpg"], "keep")] [(["r", "_KEEPS", "a.jpg"], "keep")] ["r"]
    (by decide)

/-- C9: when executing a relocation plan fails at some move, the moves
before it keep their effect on the filesystem state, no later move is
attempted (the result does not depend on the remaining queue), and the
error is reported alongside that state. -/
theorem c9_failure_midbatch {σ ε : Type} (mv : Path → Path → σ → Except ε σ)
    (plan : MovePlan) (folderRoot : Path) (st st1 : σ)
    (pre post : List (Path × Path)) (bad : Path × Path) (e : ε)
    (hq : planQueue plan folderRoot = pre ++ bad :: post)
    (hpre : runMoves mv st pre = (st1, none))
    (hbad : safeMove mv st1 bad.1 bad.2 = Except.error e) :
    executePlan mv plan folderRoot st = (st1, some e) := by
  unfold executePlan
  rw [hq, runMoves_append mv pre (bad :: post) st, hpre]
  show runMoves mv st1 (bad :: post) = (st1, some e)
  rw [runMoves, hbad]

def c9mv : Path → Path → Nat → Except String Nat := fun src _ st =>
  if src = ["r", "_KEEPS", "x.jpg"] then Except.error "boom"
  else Except.ok (st + 1)

def c9plan : MovePlan := ⟨[["r", "a.jpg"]], [], [["r", "_KEEPS", "x.jpg"]]⟩

theorem c9_witness : executePlan c9mv c9plan ["r"] 0 = (1, some "boom") :=
  c9_failure_midbatch c9mv c9plan ["r"] 0 1
    [(["r", "a.jpg"], keepDirOf ["r"])] []
    (["r", "_KEEPS", "x.jpg"], ["r"]) "boom" rfl rfl rfl

theorem mem_scanFiles {fs : Folder} {x : Path} :
    x ∈ scanFiles fs ↔ x ∈ rootFiles fs ++ keepFiles fs ++ rejectFiles fs :=
  (List.perm_insertionSort baseLe _).mem_iff

theorem scan_folder_marks_none (fs : Folder)
    (h : ¬ (scanFiles fs).isEmpty = true) :
    (scan_folder fs none).marks = seedMarks fs := by
  unfold scan_folder
  rw [if_neg h]

theorem scan_folder_marks_malformed (fs : Folder)
    (h : ¬ (scanFiles fs).isEmpty = true) :
    (scan_folder fs (some none)).marks = seedMarks fs := by
  unfold scan_folder
  rw [if_neg h]

/-- Entries that match no scanned file can be dropped from the session
without changing its overlay. -/
theorem applySession_filter_matched (files : List Path) (sd : Session) :
    ∀ m : Marks,
      applySession files m (sd.filter (fun e =>
        files.any (fun p => decide (basename p = e.1))))
      = applySession files m sd := by
  induction sd with
  | nil => intro m; rfl
  | cons e rest ih =>
    intro m
    rw [List.filter_cons]
    by_cases hmatch : files.any (fun p => decide (basename p = e.1)) = true
    · rw [if_pos hmatch, applySession, applySession]
      exact ih _
    · rw [if_neg hmatch, applySession]
      have hnone : dictGet e.1 (nameToPath files) = none := by
        cases hg : dictGet e.1 (nameToPath files) with
        | none => rfl
        | some p =>
          exfalso
          apply hmatch
          have hh := nameToPath_mem hg
          exact List.any_eq_true.mpr ⟨p, hh.1, by simp [hh.2]⟩
      rw [hnone]
      exact ih m

/-- C2 (amended): with a parseable session, every session entry whose
basename matches exactly one scanned file sets the initial mark of that
file to its status, overriding the location-seeded mark; entries matching
no scanned file have no effect on the scan result. -/
theorem c2_session_overlay (fs : Folder) (sd : Session)
    (hk : (sd.map Prod.fst).Nodup) :
    (∀ n s f, (n, s) ∈ sd
      → f ∈ (scan_folder fs (some (some sd))).files
      → basename f = n
      → (∀ g ∈ (scan_folder fs (some (some sd))).files, basename g = n → g = f)
      → dictGet f (scan_folder fs (some (some sd))).marks = some s)
    ∧ scan_folder fs (some (some sd))
        = scan_folder fs (some (some (sd.filter (fun e =>
            (scanFiles fs).any (fun p => decide (basename p = e.1)))))) := by
  constructor
  · intro n s f hmem hf hbn huniq
    rw [scan_folder_files] at hf huniq
    have hemp : ¬ (scanFiles fs).isEmpty = true := by
      intro hh
      rw [List.isEmpty_iff.mp hh] at hf
      exact List.not_mem_nil f hf
    rw [scan_folder_marks_parsed fs sd hemp]
    have hex : (dictGet n (nameToPath (scanFiles fs))).isSome = true :=
      (nameToPath_isSome_iff _ _).mpr ⟨f, hf, hbn⟩
    rcases Option.isSome_iff_exists.mp hex with ⟨p, hp⟩
    have hpmem := nameToPath_mem hp
    have hpf : p = f := huniq p hpmem.1 hpmem.2
    rw [hpf] at hp
    exact applySession_resolved (scanFiles fs) sd n s f hk hmem hp _
  · unfold scan_folder
    by_cases hemp : (scanFiles fs).isEmpty
    · rw [if_pos hemp, if_pos hemp]
    · rw [if_neg hemp, if_neg hemp]
      show ScanResult.mk (scanFiles fs)
          (applySession (scanFiles fs) (seedMarks fs) sd)
        = ScanResult.mk (scanFiles fs)
          (applySession (scanFiles fs) (seedMarks fs)
            (sd.filter (fun e =>
              (scanFiles fs).any (fun p => decide (basename p = e.1)))))
      rw [applySession_filter_matched (scanFiles fs) sd (seedMarks fs)]

def c2fs : Folder := ⟨["r"], ["a.jpg"], ["a.jpg"], []⟩

def c2sd : Session := [("a.jpg", "reject")]

/-- C2 counterexample: with the same eligible basename present both in the
root and under _KEEPS, a session entry for that basename matches both
files, yet the scan leaves the root copy unmarked: its initial mark is not
the session status. -/
theorem c2_counterexample :
    (["r", "a.jpg"] : Path) ∈ (scan_folder c2fs (some (some c2sd))).files
    ∧ ("a.jpg", "reject") ∈ c2sd
    ∧ basename ["r", "a.jpg"] = "a.jpg"
    ∧ dictGet ["r", "a.jpg"] (scan_folder c2fs (some (some c2sd))).marks
        ≠ some "reject" := by
  decide

def w2fs : Folder := ⟨["r"], ["a.jpg"], [], ["b.jpg"]⟩

def w2sd : Session := [("b.jpg", "keep")]

theorem c2_witness :
    dictGet ["r", "_REJECTS", "b.jpg"]
        (scan_folder w2fs (some (some w2sd))).marks = some "keep" :=
  (c2_session_overlay w2fs w2sd (by decide)).1 "b.jpg" "keep"
    ["r", "_REJECTS", "b.jpg"] (by decide) (by decide) (by decide) (by decide)

/-- C5 (amended): setMark(path, None) removes the mapping entry for that
path (a no-op when no entry exists), and provided no other marked path
shares the basename of that path, the next save omits that basename and a
session lookup of it yields absence, not an explicit unset value. -/
theorem c5_unset_removes (m : Marks) (p : Path) :
    dictGet p (setMark m p none) = none
    ∧ (dictGet p m = none → setMark m p none = m)
    ∧ ((∀ e ∈ m, e.1 ≠ p → basename e.1 ≠ basename p)
        → dictGet (basename p) (save_session (setMark m p none)) = none) := by
  refine ⟨?_, ?_, ?_⟩
  · show dictGet p (eraseKey m p) = none
    rw [dictGet_eraseKey, if_pos rfl]
  · intro h
    show eraseKey m p = m
    apply List.filter_eq_self.mpr
    intro e he
    simpa using (dictGet_eq_none_iff p m).mp h e he
  · intro h
    show dictGet (basename p) (save_session (eraseKey m p)) = none
    rw [save_session_spec]
    have hfind : (eraseKey m p).reverse.find?
        (fun e => decide (basename e.1 = basename p)) = none := by
      rw [List.find?_eq_none]
      intro e he
      rw [List.mem_reverse] at he
      unfold eraseKey at he
      have hmem := List.mem_filter.mp he
      simp only [decide_eq_true_eq]
      exact h e hmem.1 (by simpa using hmem.2)
    rw [hfind]
    rfl

def c5m : Marks := [(["r", "a.jpg"], "keep"), (["r", "_KEEPS", "a.jpg"], "keep")]

/-- C5 counterexample: two marked paths share the basename a.jpg; clearing
the mark of the root copy removes its entry, yet the next save still
writes the key a.jpg (from the other path), so the saved session does not
omit that basename. -/
theorem c5_counterexample :
    dictGet ["r", "a.jpg"] (setMark c5m ["r", "a.jpg"] none) = none
    ∧ dictGet "a.jpg" (save_session (setMark c5m ["r", "a.jpg"] none)) ≠ none := by
  decide

theorem c5_witness :
    dictGet ["r", "b.jpg"]
        (setMark [(["r", "c.jpg"], "reject")] ["r", "b.jpg"] none) = none
    ∧ setMark [(["r", "c.jpg"], "reject")] ["r", "b.jpg"] none
        = [(["r", "c.jpg"], "reject")]
    ∧ dictGet (basename ["r", "b.jpg"])
        (save_session (setMark [(["r", "c.jpg"], "reject")] ["r", "b.jpg"] none))
        = none :=
  ⟨(c5_unset_removes [(["r", "c.jpg"], "reject")] ["r", "b.jpg"]).1,
   (c5_unset_removes [(["r", "c.jpg"], "reject")] ["r", "b.jpg"]).2.1 (by decide),
   (c5_unset_removes [(["r", "c.jpg"], "reject")] ["r", "b.jpg"]).2.2 (by decide)⟩

/-- C6: for a mark set whose keys have pairwise-distinct basenames, saving
and reloading reproduces exactly the basename-to-status mapping: every
marked path's basename maps to its status and only basenames of marked
paths appear. -/
theorem c6_save_load_roundtrip (m : Marks)
    (hb : (m.map (fun e => basename e.1)).Nodup) :
    (∀ p s, (p, s) ∈ m → dictGet (basename p) (save_session m) = some s)
    ∧ (∀ n, (dictGet n (save_session m)).isSome = true
        ↔ ∃ p s, (p, s) ∈ m ∧ basename p = n) := by
  constructor
  · intro p s hmem
    rw [save_session_spec]
    have hex : (m.reverse.find?
        (fun e => decide (basename e.1 = basename p))).isSome = true := by
      rw [List.find?_isSome]
      exact ⟨(p, s), List.mem_reverse.mpr hmem, by simp⟩
    rcases Option.isSome_iff_exists.mp hex with ⟨e, he⟩
    have hemem := List.mem_reverse.mp (List.mem_of_find?_eq_some he)
    have hbe : basename e.1 = basename p := by simpa using List.find?_some he
    have heq : e = (p, s) := List.inj_on_of_nodup_map hb hemem hmem hbe
    rw [he, heq]
    rfl
  · intro n
    rw [save_session_spec]
    cases hfind : m.reverse.find? (fun e => decide (basename e.1 = n)) with
    | none =>
      simp only [Option.map_none', Option.isSome_none, Bool.false_eq_true,
        false_iff]
      rintro ⟨p, s, hmem, hb2⟩
      rw [List.find?_eq_none] at hfind
      exact hfind (p, s) (List.mem_reverse.mpr hmem) (by simp [hb2])
    | some e =>
      simp only [Option.map_some', Option.isSome_some, true_iff]
      exact ⟨e.1, e.2, List.mem_reverse.mp (List.mem_of_find?_eq_some hfind),
        by simpa using List.find?_some hfind⟩

def c6m : Marks := [(["r", "a.jpg"], "keep"), (["r", "_REJECTS", "b.jpg"], "reject")]

theorem c6_witness :
    dictGet (basename (["r", "a.jpg"] : Path)) (save_session c6m) = some "keep"
    ∧ ((dictGet "zz.jpg" (save_session c6m)).isSome = true
        ↔ ∃ p s, (p, s) ∈ c6m ∧ basename p = "zz.jpg") :=
  ⟨(c6_save_load_roundtrip c6m (by decide)).1 ["r", "a.jpg"] "keep" (by decide),
   (c6_save_load_roundtrip c6m (by decide)).2 "zz.jpg"⟩

/-- C7: after a scan every key of the mark set is a file of the scan
result (the mark set is rebuilt from scratch, so session entries for files
no longer found are dropped), and a mark mutation on a path of the current
file list keeps every key inside the file list. -/
theorem c7_marks_subset_files (fs : Folder) (sess : Option (Option Session)) :
    (∀ q, (dictGet q (scan_folder fs sess).marks).isSome = true
      → q ∈ (scan_folder fs sess).files)
    ∧ (∀ (m : Marks) (files : List Path) (q0 : Path) (st : Option String),
        (∀ q, (dictGet q m).isSome = true → q ∈ files) → q0 ∈ files →
        ∀ q, (dictGet q (setMark m q0 st)).isSome = true → q ∈ files) := by
  constructor
  · intro q hq
    rw [scan_folder_files]
    by_cases hemp : (scanFiles fs).isEmpty
    · rw [scan_folder_marks_empty fs sess hemp] at hq
      simp [dictGet] at hq
    · have hseed : ∀ q', (dictGet q' (seedMarks fs)).isSome = true
          → q' ∈ scanFiles fs := by
        intro q' hq'
        rw [seedMarks_spec] at hq'
        by_cases h1 : q' ∈ rejectFiles fs
        · exact mem_scanFiles.mpr (List.mem_append.mpr (Or.inr h1))
        · rw [if_neg h1] at hq'
          by_cases h2 : q' ∈ keepFiles fs
          · exact mem_scanFiles.mpr
              (List.mem_append.mpr (Or.inl (List.mem_append.mpr (Or.inr h2))))
          · rw [if_neg h2] at hq'
            simp at hq'
      cases sess with
      | none =>
        rw [scan_folder_marks_none fs hemp] at hq
        exact hseed q hq
      | some o =>
        cases o with
        | none =>
          rw [scan_folder_marks_malformed fs hemp] at hq
          exact hseed q hq
        | some sd =>
          rw [scan_folder_marks_parsed fs sd hemp] at hq
          rcases applySession_isSome (scanFiles fs) sd q (seedMarks fs) hq with h | h
          · exact hseed q h
          · exact h
  · intro m files q0 st hinv hq0 q hq
    cases st with
    | none =>
      have hq' : (dictGet q (eraseKey m q0)).isSome = true := hq
      rw [dictGet_eraseKey] at hq'
      by_cases hqq : q = q0
      · rw [if_pos hqq] at hq'
        simp at hq'
      · rw [if_neg hqq] at hq'
        exact hinv q hq'
    | some s =>
      have hq' : (dictGet q (dinsert m q0 s)).isSome = true := hq
      rcases dictGet_dinsert_isSome hq' with rfl | h
      · exact hq0
      · exact hinv q h

def w7fs : Folder := ⟨["r"], ["a.jpg"], ["b.jpg"], []⟩

theorem c7_witness :
    (["r", "_KEEPS", "b.jpg"] : Path) ∈ (scan_folder w7fs none).files
    ∧ (["r", "a.jpg"] : Path) ∈ [(["r", "a.jpg"] : Path)] :=
  ⟨(c7_marks_subset_files w7fs none).1 ["r", "_KEEPS", "b.jpg"] (by decide),
   (c7_marks_subset_files w7fs none).2 [] [["r", "a.jpg"]] ["r", "a.jpg"]
     (some "keep") (fun q hq => by simp [dictGet] at hq) (by decide)
     ["r", "a.jpg"] (by decide)⟩

/-- C8: a session file that exists but cannot be read or parsed leaves the
scan identical to a scan with no session file at all: the scan does not
fail and the marks are exactly the location-seeded ones (_KEEPS files
keep, _REJECTS files reject, everything else unmarked). -/
theorem c8_malformed_session_ignored (fs : Folder) :
    scan_folder fs (some none) = scan_folder fs none
    ∧ ∀ f, dictGet f (scan_folder fs (some none)).marks
        = (if f ∈ rejectFiles fs then some "reject"
           else if f ∈ keepFiles fs then some "keep" else none) := by
  constructor
  · rfl
  · intro f
    by_cases hemp : (scanFiles fs).isEmpty
    · rw [scan_folder_marks_empty fs (some none) hemp]
      have hnil : rootFiles fs ++ keepFiles fs ++ rejectFiles fs = [] := by
        have h0 := List.isEmpty_iff.mp hemp
        have hperm := List.perm_insertionSort baseLe
          (rootFiles fs ++ keepFiles fs ++ rejectFiles fs)
        rw [show List.insertionSort baseLe
            (rootFiles fs ++ keepFiles fs ++ rejectFiles fs) = scanFiles fs
          from rfl, h0] at hperm
        exact (hperm.symm).eq_nil
      rcases List.append_eq_nil.mp hnil with ⟨hrk, hrej⟩
      rcases List.append_eq_nil.mp hrk with ⟨_, hkeep⟩
      rw [if_neg (by rw [hrej]; exact List.not_mem_nil f),
        if_neg (by rw [hkeep]; exact List.not_mem_nil f)]
      rfl
    · rw [scan_folder_marks_malformed fs hemp]
      exact seedMarks_spec fs f

/-- C10: a session status string of any value is stored verbatim as the
in-memory mark of the file its basename resolves to, and planning treats
any status other than keep and reject exactly like no mark: the target
directory is the folder root. -/
theorem c10_status_verbatim :
    (∀ (fs : Folder) (sd : Session) (n s : String) (f : Path),
      (sd.map Prod.fst).Nodup → (n, s) ∈ sd
      → dictGet n (nameToPath (scanFiles fs)) = some f
      → dictGet f (scan_folder fs (some (some sd))).marks = some s)
    ∧ (∀ (marks : Marks) (folderRoot f : Path) (s : String),
        dictGet f marks = some s → s ≠ "keep" → s ≠ "reject"
        → targetDir marks folderRoot f = folderRoot) := by
  constructor
  · intro fs sd n s f hk hmem hf
    have hfmem : f ∈ scanFiles fs := (nameToPath_mem hf).1
    have hemp : ¬ (scanFiles fs).isEmpty = true := by
      intro hh
      rw [List.isEmpty_iff.mp hh] at hfmem
      exact List.not_mem_nil f hfmem
    rw [scan_folder_marks_parsed fs sd hemp]
    exact applySession_resolved (scanFiles fs) sd n s f hk hmem hf _
  · intro marks folderRoot f s hs hk hr
    unfold targetDir
    rw [hs]
    simp [hk, hr]

def w10fs : Folder := ⟨["r"], ["a.jpg"], [], []⟩

def w10sd : Session := [("a.jpg", "maybe")]

theorem c10_witness :
    dictGet ["r", "a.jpg"] (scan_folder w10fs (some (some w10sd))).marks
        = some "maybe"
    ∧ targetDir [(["r", "a.jpg"], "maybe")] ["r"] ["r", "a.jpg"] = ["r"] :=
  ⟨c10_status_verbatim.1 w10fs w10sd "a.jpg" "maybe" ["r", "a.jpg"]
     (by decide) (by decide) (by decide),
   c10_status_verbatim.2 [(["r", "a.jpg"], "maybe")] ["r"] ["r", "a.jpg"]
     "maybe" (by decide) (by decide) (by decide)⟩

end CullSpeed
